import Mathlib

/-!
Verification of the model-parallel / data-parallel communication layer
(`src/model/func_impl.py` and `src/data/data_parallel_preprocess.py`).

A 2-D numpy tensor is embedded as `Mat`: a shape `(rows, cols)` together
with an entry function; entries outside the declared shape are irrelevant
and every statement quantifies only over in-range indices (`Mat.EqOn`).
MPI collectives over a model-parallel (resp. data-parallel) group are
embedded by passing the family of local tensors of all group members,
indexed in group-rank order (`comm.Split(color, key=rank)` orders members
by ascending global rank, hence ascending `mp_idx` / `dp_idx`), together
with the caller's index inside the group where the source reads local
state (buffer shapes, reduce-scatter destination).
-/

/-- A 2-D tensor of shape `(rows, cols)` with integer entries. -/
structure Mat where
  rows : Nat
  cols : Nat
  entry : Nat → Nat → Int

/-- Extensional equality of two tensors on their declared (in-range) indices. -/
def Mat.EqOn (A B : Mat) : Prop :=
  A.rows = B.rows ∧ A.cols = B.cols ∧
    ∀ r, r < A.rows → ∀ c, c < A.cols → A.entry r c = B.entry r c

instance (A B : Mat) : Decidable (A.EqOn B) := by
  unfold Mat.EqOn; exact inferInstance

/-- Horizontal (feature-axis, numpy `axis=1`) concatenation of two tensors. -/
def hconcat (A B : Mat) : Mat :=
  ⟨A.rows, A.cols + B.cols,
    fun r c => if c < A.cols then A.entry r c else B.entry r (c - A.cols)⟩

/-- The `np.concatenate(·, axis=1)` of a list of tensors, in list order. -/
def concatCols : List Mat → Mat
  | [] => ⟨0, 0, fun _ _ => 0⟩
  | m :: ms => hconcat m (concatCols ms)

/-- Column block `i` of width `width`: columns `[i*width, (i+1)*width)`.
This is `np.split(M, k, axis=1)[i]` when `width = M.cols / k`. -/
def colBlock (M : Mat) (i width : Nat) : Mat :=
  ⟨M.rows, width, fun r c => M.entry r (i * width + c)⟩

/-- Transpose (`.T` in numpy). -/
def Mat.transpose (M : Mat) : Mat :=
  ⟨M.cols, M.rows, fun r c => M.entry c r⟩

/-- Row-major (`C order`) flattening, as numpy `.flatten()` on a contiguous
array: element `k` is `M[k / cols][k % cols]`. -/
def Mat.flatten (M : Mat) : Nat → Int :=
  fun k => M.entry (k / M.cols) (k % M.cols)

/-- Reinterpret a flat buffer as a `(r, c)` tensor (`np.reshape`, row-major). -/
def reshapeTo (r c : Nat) (buf : Nat → Int) : Mat :=
  ⟨r, c, fun i j => buf (i * c + j)⟩

/-- Pointwise sum, at entry `(r, c)`, of the first `size` tensors of a family. -/
def sumEntry (ts : Nat → Mat) (size r c : Nat) : Int :=
  ((List.range size).map (fun j => (ts j).entry r c)).sum

/-- MPI `Allreduce(op=SUM)` as seen by group member `i`: the receive buffer
is `np.empty_like` the local tensor, so it takes the local shape, and every
entry is the sum over the group. -/
def allreduceSum (ts : Nat → Mat) (size i : Nat) : Mat :=
  ⟨(ts i).rows, (ts i).cols, fun r c => sumEntry ts size r c⟩

/-- MPI `Reduce_scatter(op=SUM)` with equal blocks of length `chunk`: member
`i` receives elements `[i*chunk, (i+1)*chunk)` of the element-wise sum of the
members' flat send buffers. -/
def reduceScatterSum (bufs : Nat → Nat → Int) (size chunk i : Nat) : Nat → Int :=
  fun t => ((List.range size).map (fun j => bufs j (i * chunk + t))).sum

/-- The element-wise sum of the first `size` tensors, with declared shape
`(rows, cols)`: the reference object the spec's sum-reduction claims name. -/
def elementwiseSum (ts : Nat → Mat) (size rows cols : Nat) : Mat :=
  ⟨rows, cols, fun r c => sumEntry ts size r c⟩

/-- Result record of `get_info` (`func_impl.py`, lines 65-89).  The two MPI
communicator handles produced by `comm.Split` are not data; the group they
induce is embedded at each collective call site by the family of member
tensors in ascending-rank order. -/
structure GetInfo where
  mp_idx : Nat
  dp_idx : Nat
  part_in_dim : Nat
  part_out_dim : Nat

/-- Embedding of `get_info`: `mp_idx = rank % mp_size`, `dp_idx = rank //
mp_size`, and the partition dimensions chosen by `is_fc1` / `is_megatron_mp`
(Python `//` on non-negative ints is `Nat` division). -/
def get_info (rank mp_size dp_size : Nat) (is_fc1 is_megatron_mp : Bool)
    (in_dim out_dim : Nat) : GetInfo :=
  let mp_idx := rank % mp_size
  let dp_idx := rank / mp_size
  let _ := dp_size
  if is_fc1 then
    ⟨mp_idx, dp_idx, in_dim, out_dim / mp_size⟩
  else
    if is_megatron_mp then
      ⟨mp_idx, dp_idx, in_dim / mp_size, out_dim⟩
    else
      ⟨mp_idx, dp_idx, in_dim, out_dim / mp_size⟩

/-- Embedding of `naive_collect_forward_input` (lines 123-125):
`allgather` the members' local tensors in group-rank order, then
`np.concatenate(gathered, axis=1)`. -/
def naive_collect_forward_input (xs : Nat → Mat) (mp_size : Nat) : Mat :=
  concatCols ((List.range mp_size).map xs)

/-- Embedding of `naive_collect_forward_output` (lines 153-155): same
allgather-then-concatenate as the input collective. -/
def naive_collect_forward_output (outs : Nat → Mat) (mp_size : Nat) : Mat :=
  concatCols ((List.range mp_size).map outs)

/-- Embedding of `megatron_collect_forward_input` (line 185): identity. -/
def megatron_collect_forward_input (x : Mat) (mp_size : Nat) : Mat :=
  let _ := mp_size
  x

/-- Embedding of `megatron_collect_forward_output` (lines 213-215):
`Allreduce(out, collected_out, op=MPI.SUM)` into an `empty_like` buffer,
seen by group member `i`. -/
def megatron_collect_forward_output (outs : Nat → Mat) (mp_size i : Nat) : Mat :=
  allreduceSum outs mp_size i

/-- Embedding of `naive_collect_backward_output` (lines 242-244):
`np.split(output_grad, mp_size, axis=1)[mp_group_idx]`.  (`np.split`
requires `cols % mp_size == 0`; the block width is `cols / mp_size`.) -/
def naive_collect_backward_output (output_grad : Mat) (mp_group_idx mp_size : Nat) : Mat :=
  colBlock output_grad mp_group_idx (output_grad.cols / mp_size)

/-- Embedding of `naive_collect_backward_x` (lines 274-292), seen by group
member `i`: transpose the local `grad_x`, flatten it, `Reduce_scatter` the
flat buffers with `op=SUM` into a buffer of `part_in_dim * batch_size`
elements, reshape to `(part_in_dim, batch_size)` and transpose back. -/
def naive_collect_backward_x (gs : Nat → Mat) (mp_size i : Nat) : Mat :=
  let batch_size := (gs i).rows
  let in_dim := (gs i).cols
  let part_in_dim := in_dim / mp_size
  let recv_buf := reduceScatterSum (fun j => ((gs j).transpose).flatten)
    mp_size (part_in_dim * batch_size) i
  (reshapeTo part_in_dim batch_size recv_buf).transpose

/-- Embedding of `megatron_collect_backward_output` (line 319): identity. -/
def megatron_collect_backward_output (output_grad : Mat) (mp_group_idx mp_size : Nat) : Mat :=
  let _ := mp_group_idx
  let _ := mp_size
  output_grad

/-- Embedding of `megatron_collect_backward_x` (line 347): identity. -/
def megatron_collect_backward_x (grad_x : Mat) (mp_size : Nat) : Mat :=
  let _ := mp_size
  grad_x

/-- Embedding of `collect_weight_grad` (lines 378-384): two `Allreduce`
sum-reductions over the data-parallel group, seen by group member `i`. -/
def collect_weight_grad (grad_w grad_b : Nat → Mat) (dp_size i : Nat) : Mat × Mat :=
  (allreduceSum grad_w dp_size i, allreduceSum grad_b dp_size i)

/-- Embedding of `split_data` (`data_parallel_preprocess.py`, lines 48-57).
The Python slice `x[start : start + chunk]` clamps at the list's length,
exactly as `(x.drop start).take chunk` does. -/
def split_data {α β : Type} (x_train : List α) (y_train : List β)
    (mp_size dp_size rank : Nat) : List α × List β :=
  let dp_group_id := rank / mp_size
  let data_num := x_train.length
  let chunk_size := data_num / dp_size
  let start_idx := dp_group_id * chunk_size
  ((x_train.drop start_idx).take chunk_size,
   (y_train.drop start_idx).take chunk_size)

/-- Concrete data list used for the out-of-grid `split_data` counterexample. -/
def x_oob : List Int := [0, 1, 2, 3, 4]

/-- Concrete label list used for the out-of-grid `split_data` counterexample. -/
def y_oob : List Int := [5, 6, 7, 8, 9]

/-- A family of per-rank tensors whose feature widths disagree (rank 0 has
width 1, every other rank width 2). -/
def mismatch_outs : Nat → Mat :=
  fun j => if j = 0 then ⟨2, 1, fun _ _ => 1⟩ else ⟨2, 2, fun _ _ => 2⟩

/-- Concrete full tensor for the naive forward/backward duality witness. -/
def T_dual : Mat := ⟨1, 4, fun r c => (r : Int) + c⟩

/-- Concrete per-rank gradient family for the reduce-scatter witness. -/
def gs_rs : Nat → Mat := fun j => ⟨1, 2, fun r c => (j : Int) * 2 + r + c⟩

/-- Concrete per-rank partial-output family for the Megatron witness. -/
def outs_mg : Nat → Mat := fun j => ⟨1, 1, fun _ _ => (j : Int) + 2⟩

/-- Concrete local tensor for the Megatron identity witness. -/
def x_mg : Mat := ⟨1, 1, fun _ _ => 5⟩

/-- Concrete per-rank weight-gradient family for the gradient-reducer witness. -/
def ws_w : Nat → Mat := fun _ => ⟨2, 1, fun r c => (r : Int) + c + 1⟩

/-- Concrete per-rank bias-gradient family for the gradient-reducer witness. -/
def bs_w : Nat → Mat := fun _ => ⟨1, 1, fun _ _ => 7⟩

theorem colBlock_entry (M : Mat) (i w r c : Nat) :
    (colBlock M i w).entry r c = M.entry r (i * w + c) := rfl

theorem colBlock_cols (M : Mat) (i w : Nat) : (colBlock M i w).cols = w := rfl

theorem colBlock_rows (M : Mat) (i w : Nat) : (colBlock M i w).rows = M.rows := rfl

theorem hconcat_entry (A B : Mat) (r c : Nat) :
    (hconcat A B).entry r c
      = if c < A.cols then A.entry r c else B.entry r (c - A.cols) := rfl

theorem concatCols_cons (m : Mat) (ms : List Mat) :
    concatCols (m :: ms) = hconcat m (concatCols ms) := rfl

theorem concatCols_cols (L : List Mat) :
    (concatCols L).cols = (L.map Mat.cols).sum := by
  induction L with
  | nil => rfl
  | cons m ms ih => simp [concatCols, hconcat, ih]

theorem sum_const_range (n p : Nat) :
    ((List.range n).map (fun _ => p)).sum = n * p := by
  induction n with
  | zero => simp
  | succ k ih =>
    rw [List.range_succ, List.map_append, List.sum_append, ih]
    simp [Nat.succ_mul]

theorem get_info_mp_idx (rank mp dp in_dim out_dim : Nat) (fc meg : Bool) :
    (get_info rank mp dp fc meg in_dim out_dim).mp_idx = rank % mp := by
  cases fc <;> cases meg <;> rfl

theorem get_info_dp_idx (rank mp dp in_dim out_dim : Nat) (fc meg : Bool) :
    (get_info rank mp dp fc meg in_dim out_dim).dp_idx = rank / mp := by
  cases fc <;> cases meg <;> rfl

theorem chunks_flatten {α : Type} (x : List α) :
    ∀ n c : Nat,
      ((List.range n).map (fun d => (x.drop (d * c)).take c)).flatten
        = x.take (n * c) := by
  intro n
  induction n with
  | zero => intro c; simp
  | succ k ih =>
    intro c
    rw [List.range_succ, List.map_append, List.flatten_append]
    simp only [List.map_cons, List.map_nil, List.flatten_cons, List.flatten_nil,
      List.append_nil]
    rw [ih c, Nat.succ_mul, List.take_add]

/-- C9: `get_info` computes `mp_idx = rank mod mp_size` and `dp_idx = rank div
mp_size`; `dp_idx * mp_size + mp_idx` reconstructs the rank, and the map from
rank to the index pair is injective on `[0, mp_size * dp_size)`. -/
theorem rank_grid_round_trip (mp_size dp_size r1 r2 in_dim out_dim : Nat)
    (fc meg : Bool)
    (_h1 : 1 ≤ mp_size) (_h2 : 1 ≤ dp_size)
    (_hr1 : r1 < mp_size * dp_size) (_hr2 : r2 < mp_size * dp_size) :
    (get_info r1 mp_size dp_size fc meg in_dim out_dim).mp_idx = r1 % mp_size
    ∧ (get_info r1 mp_size dp_size fc meg in_dim out_dim).dp_idx = r1 / mp_size
    ∧ (get_info r1 mp_size dp_size fc meg in_dim out_dim).dp_idx * mp_size
        + (get_info r1 mp_size dp_size fc meg in_dim out_dim).mp_idx = r1
    ∧ ((get_info r1 mp_size dp_size fc meg in_dim out_dim).mp_idx
          = (get_info r2 mp_size dp_size fc meg in_dim out_dim).mp_idx →
       (get_info r1 mp_size dp_size fc meg in_dim out_dim).dp_idx
          = (get_info r2 mp_size dp_size fc meg in_dim out_dim).dp_idx →
       r1 = r2) := by
  simp only [get_info_mp_idx, get_info_dp_idx]
  refine ⟨trivial, trivial, ?_, ?_⟩
  · calc r1 / mp_size * mp_size + r1 % mp_size
        = mp_size * (r1 / mp_size) + r1 % mp_size := by rw [Nat.mul_comm]
      _ = r1 := Nat.div_add_mod r1 mp_size
  · intro hm hd
    calc r1 = mp_size * (r1 / mp_size) + r1 % mp_size := (Nat.div_add_mod r1 mp_size).symm
      _ = mp_size * (r2 / mp_size) + r2 % mp_size := by rw [hm, hd]
      _ = r2 := Nat.div_add_mod r2 mp_size

theorem rank_grid_round_trip_witness :
    (1 ≤ 2 ∧ 1 ≤ 3 ∧ 5 < 2 * 3 ∧ 4 < 2 * 3)
    ∧ ((get_info 5 2 3 true false 8 6).mp_idx = 5 % 2
       ∧ (get_info 5 2 3 true false 8 6).dp_idx = 5 / 2
       ∧ (get_info 5 2 3 true false 8 6).dp_idx * 2
           + (get_info 5 2 3 true false 8 6).mp_idx = 5
       ∧ ((get_info 5 2 3 true false 8 6).mp_idx
             = (get_info 4 2 3 true false 8 6).mp_idx →
          (get_info 5 2 3 true false 8 6).dp_idx
             = (get_info 4 2 3 true false 8 6).dp_idx →
          5 = 4)) :=
  ⟨⟨by decide, by decide, by decide, by decide⟩,
   rank_grid_round_trip 2 3 5 4 8 6 true false (by decide) (by decide)
     (by decide) (by decide)⟩

/-- C4: the Shard Planner decision table — `is_fc1` splits the output
dimension regardless of strategy, `fc2` with Megatron splits the input
dimension, `fc2` with naive MP splits the output dimension; under exact
divisibility the split dimension times `mp_size` recovers the full dimension
and the unsplit dimension is returned unchanged. -/
theorem get_info_partition_table (rank mp dp in_dim out_dim : Nat)
    (hin : mp ∣ in_dim) (hout : mp ∣ out_dim) :
    ((get_info rank mp dp true true in_dim out_dim).part_in_dim = in_dim
      ∧ (get_info rank mp dp true true in_dim out_dim).part_out_dim = out_dim / mp)
    ∧ ((get_info rank mp dp true false in_dim out_dim).part_in_dim = in_dim
      ∧ (get_info rank mp dp true false in_dim out_dim).part_out_dim = out_dim / mp)
    ∧ ((get_info rank mp dp false true in_dim out_dim).part_in_dim = in_dim / mp
      ∧ (get_info rank mp dp false true in_dim out_dim).part_out_dim = out_dim)
    ∧ ((get_info rank mp dp false false in_dim out_dim).part_in_dim = in_dim
      ∧ (get_info rank mp dp false false in_dim out_dim).part_out_dim = out_dim / mp)
    ∧ (out_dim / mp) * mp = out_dim
    ∧ (in_dim / mp) * mp = in_dim :=
  ⟨⟨rfl, rfl⟩, ⟨rfl, rfl⟩, ⟨rfl, rfl⟩, ⟨rfl, rfl⟩,
   Nat.div_mul_cancel hout, Nat.div_mul_cancel hin⟩

theorem get_info_partition_table_witness :
    ((2 : Nat) ∣ 4 ∧ (2 : Nat) ∣ 6)
    ∧ (((get_info 0 2 1 true true 4 6).part_in_dim = 4
        ∧ (get_info 0 2 1 true true 4 6).part_out_dim = 6 / 2)
      ∧ ((get_info 0 2 1 true false 4 6).part_in_dim = 4
        ∧ (get_info 0 2 1 true false 4 6).part_out_dim = 6 / 2)
      ∧ ((get_info 0 2 1 false true 4 6).part_in_dim = 4 / 2
        ∧ (get_info 0 2 1 false true 4 6).part_out_dim = 6)
      ∧ ((get_info 0 2 1 false false 4 6).part_in_dim = 4
        ∧ (get_info 0 2 1 false false 4 6).part_out_dim = 6 / 2)
      ∧ (6 / 2) * 2 = 6
      ∧ (4 / 2) * 2 = 4) :=
  ⟨⟨by decide, by decide⟩,
   get_info_partition_table 0 2 1 4 6 (by decide) (by decide)⟩

/-- C5 counterexample: with `out_dim = 5` not divisible by `mp_size = 2`,
`get_info` returns `part_out_dim = 2` (so `part_out_dim * mp_size ≠ out_dim`)
instead of failing: the partition dimension is silently truncated. -/
theorem get_info_truncation_cex :
    (5 % 2 ≠ 0)
    ∧ (get_info 0 2 1 true false 4 5).part_out_dim = 2
    ∧ (get_info 0 2 1 true false 4 5).part_out_dim * 2 ≠ 5 := by
  decide

/-- C5 amended: `get_info` performs no divisibility check; when `out_dim`
is not divisible by `mp_size` it returns the floor-truncated
`part_out_dim = out_dim / mp_size`, whose product with `mp_size` falls short
of `out_dim`, rather than raising a configuration error. -/
theorem get_info_truncates_silently (rank mp dp in_dim out_dim : Nat) (meg : Bool)
    (_hmp : 1 ≤ mp) (hndvd : out_dim % mp ≠ 0) :
    (get_info rank mp dp true meg in_dim out_dim).part_out_dim = out_dim / mp
    ∧ (get_info rank mp dp true meg in_dim out_dim).part_out_dim * mp < out_dim := by
  have h1 : (get_info rank mp dp true meg in_dim out_dim).part_out_dim
      = out_dim / mp := by cases meg <;> rfl
  refine ⟨h1, ?_⟩
  rw [h1]
  have h2 := Nat.div_add_mod out_dim mp
  have h3 : 0 < out_dim % mp := Nat.pos_of_ne_zero hndvd
  calc out_dim / mp * mp = mp * (out_dim / mp) := Nat.mul_comm _ _
    _ < out_dim := by omega

theorem get_info_truncates_silently_witness :
    (1 ≤ 2 ∧ 5 % 2 ≠ 0)
    ∧ ((get_info 3 2 1 true true 4 5).part_out_dim = 5 / 2
       ∧ (get_info 3 2 1 true true 4 5).part_out_dim * 2 < 5) :=
  ⟨⟨by decide, by decide⟩,
   get_info_truncates_silently 3 2 1 4 5 true (by decide) (by decide)⟩

/-- C7: `split_data` returns exactly the slice
`[dp_index*chunk, (dp_index+1)*chunk)` of `x` and `y` where
`dp_index = rank / mp_size` and `chunk = len(x) / dp_size`; the result
depends on the rank only through `dp_index`; and the shards over
`dp_index ∈ [0, dp_size)`, joined in index order, form exactly the
contiguous prefix of length `dp_size * chunk` (remainder rows dropped) —
hence they are pairwise disjoint and unshuffled. -/
theorem split_data_shards {α β : Type} (x : List α) (y : List β)
    (mp dp rank rank2 : Nat)
    (hmp : 1 ≤ mp) (_hdp : 1 ≤ dp) (hsame : rank2 / mp = rank / mp) :
    (split_data x y mp dp rank).1
        = (x.drop (rank / mp * (x.length / dp))).take (x.length / dp)
    ∧ (split_data x y mp dp rank).2
        = (y.drop (rank / mp * (x.length / dp))).take (x.length / dp)
    ∧ split_data x y mp dp rank2 = split_data x y mp dp rank
    ∧ ((List.range dp).map (fun d => (split_data x y mp dp (d * mp)).1)).flatten
        = x.take (dp * (x.length / dp)) := by
  refine ⟨rfl, rfl, ?_, ?_⟩
  · simp only [split_data, hsame]
  · have hshard : ∀ d : Nat, (split_data x y mp dp (d * mp)).1
        = (x.drop (d * (x.length / dp))).take (x.length / dp) := by
      intro d
      simp only [split_data, Nat.mul_div_cancel d hmp]
    rw [List.map_congr_left (fun d _ => hshard d), chunks_flatten]

theorem split_data_shards_witness :
    (1 ≤ 2 ∧ 1 ≤ 3 ∧ 2 / 2 = 3 / 2)
    ∧ ((split_data [10, 11, 12, 13, 14, 15] [(20 : Int), 21, 22, 23, 24, 25] 2 3 3).1
          = (([10, 11, 12, 13, 14, 15] : List Int).drop
              (3 / 2 * (([10, 11, 12, 13, 14, 15] : List Int).length / 3))).take
              (([10, 11, 12, 13, 14, 15] : List Int).length / 3)
       ∧ (split_data [(10 : Int), 11, 12, 13, 14, 15] [(20 : Int), 21, 22, 23, 24, 25] 2 3 3).2
          = (([(20 : Int), 21, 22, 23, 24, 25]).drop
              (3 / 2 * (([(10 : Int), 11, 12, 13, 14, 15]).length / 3))).take
              (([(10 : Int), 11, 12, 13, 14, 15]).length / 3)
       ∧ split_data [(10 : Int), 11, 12, 13, 14, 15] [(20 : Int), 21, 22, 23, 24, 25] 2 3 2
          = split_data [(10 : Int), 11, 12, 13, 14, 15] [(20 : Int), 21, 22, 23, 24, 25] 2 3 3
       ∧ ((List.range 3).map (fun d =>
            (split_data [(10 : Int), 11, 12, 13, 14, 15] [(20 : Int), 21, 22, 23, 24, 25] 2 3 (d * 2)).1)).flatten
          = ([(10 : Int), 11, 12, 13, 14, 15]).take
              (3 * (([(10 : Int), 11, 12, 13, 14, 15]).length / 3))) :=
  ⟨⟨by decide, by decide, by decide⟩,
   split_data_shards [(10 : Int), 11, 12, 13, 14, 15] [(20 : Int), 21, 22, 23, 24, 25]
     2 3 3 2 (by decide) (by decide) (by decide)⟩

/-- C10 counterexample: with `x` of length 5, `mp_size = 1`, `dp_size = 4`
and out-of-grid rank 4 (`rank / mp_size = 4 ≥ dp_size`), `split_data`
returns the full-size shard `[4]` of `chunk = 1` remainder rows — it is
neither empty nor truncated, so the claim's description of the out-of-grid
result is false (while no error is raised). -/
theorem split_data_out_of_grid_cex :
    4 ≤ 4 / 1
    ∧ (split_data x_oob y_oob 1 4 4).1 = [(4 : Int)]
    ∧ ¬ ((split_data x_oob y_oob 1 4 4).1 = []
         ∨ (split_data x_oob y_oob 1 4 4).1.length < x_oob.length / 4) := by
  decide

/-- C10 amended: `split_data` is total in the rank and never fails the grid
precondition: for any out-of-grid rank (`rank / mp_size ≥ dp_size`) it
returns the clamped slice `x[start : start + chunk]` — of length at most
`chunk`, empty whenever `start ≥ len(x)`, and possibly a full-size block of
remainder rows — rather than raising an error. -/
theorem split_data_total_out_of_grid {α β : Type} (x : List α) (y : List β)
    (mp dp rank : Nat) (_hdp : 1 ≤ dp) (_hout : dp ≤ rank / mp) :
    (split_data x y mp dp rank).1
        = (x.drop (rank / mp * (x.length / dp))).take (x.length / dp)
    ∧ (split_data x y mp dp rank).1.length ≤ x.length / dp
    ∧ (x.length ≤ rank / mp * (x.length / dp) →
        (split_data x y mp dp rank).1 = []) := by
  refine ⟨rfl, ?_, ?_⟩
  · simp only [split_data]
    rw [List.length_take]
    exact Nat.min_le_left _ _
  · intro h
    simp only [split_data]
    rw [List.drop_eq_nil_of_le h, List.take_nil]

theorem split_data_total_out_of_grid_witness :
    (1 ≤ 3 ∧ 3 ≤ 5 / 1)
    ∧ ((split_data [(0 : Int), 1, 2] [(9 : Int), 9, 9] 1 3 5).1
          = (([(0 : Int), 1, 2]).drop
              (5 / 1 * (([(0 : Int), 1, 2]).length / 3))).take
              (([(0 : Int), 1, 2]).length / 3)
       ∧ (split_data [(0 : Int), 1, 2] [(9 : Int), 9, 9] 1 3 5).1.length
          ≤ ([(0 : Int), 1, 2]).length / 3
       ∧ (([(0 : Int), 1, 2]).length ≤ 5 / 1 * (([(0 : Int), 1, 2]).length / 3) →
          (split_data [(0 : Int), 1, 2] [(9 : Int), 9, 9] 1 3 5).1 = [])) :=
  ⟨⟨by decide, by decide⟩,
   split_data_total_out_of_grid [(0 : Int), 1, 2] [(9 : Int), 9, 9] 1 3 5
     (by decide) (by decide)⟩

theorem concat_blocks_entry (T : Mat) (p : Nat) :
    ∀ len start r c : Nat, c < len * p →
      (concatCols ((List.range' start len).map (fun j => colBlock T j p))).entry r c
        = T.entry r (start * p + c) := by
  intro len
  induction len with
  | zero =>
    intro start r c h
    rw [Nat.zero_mul] at h
    exact absurd h (Nat.not_lt_zero c)
  | succ k ih =>
    intro start r c h
    rw [List.range'_succ start k 1, List.map_cons, concatCols_cons, hconcat_entry,
      colBlock_cols]
    by_cases hc : c < p
    · rw [if_pos hc, colBlock_entry]
    · have hp : p ≤ c := Nat.le_of_not_lt hc
      have h2 : c - p < k * p := by
        have hs : (k + 1) * p = k * p + p := Nat.succ_mul k p
        omega
      rw [if_neg hc, ih (start + 1) r (c - p) h2]
      have hs2 : (start + 1) * p = start * p + p := Nat.succ_mul start p
      congr 1
      omega

theorem naive_forward_blocks_cols (T : Mat) (p mp : Nat) :
    (naive_collect_forward_output (fun j => colBlock T j p) mp).cols = mp * p := by
  rw [naive_collect_forward_output, concatCols_cols, List.map_map]
  exact sum_const_range mp p

theorem naive_forward_blocks_rows (T : Mat) (p mp : Nat) (h : 1 ≤ mp) :
    (naive_collect_forward_output (fun j => colBlock T j p) mp).rows = T.rows := by
  obtain ⟨k, rfl⟩ : ∃ k, mp = k + 1 := ⟨mp - 1, by omega⟩
  rw [naive_collect_forward_output, List.range_eq_range', List.range'_succ 0 k 1,
    List.map_cons, concatCols_cons]
  rfl

theorem naive_forward_blocks_entry (T : Mat) (p mp r c : Nat) (h : c < mp * p) :
    (naive_collect_forward_output (fun j => colBlock T j p) mp).entry r c
      = T.entry r c := by
  rw [naive_collect_forward_output, List.range_eq_range',
    concat_blocks_entry T p mp 0 r c h, Nat.zero_mul, Nat.zero_add]

/-- C1: naive forward/backward duality — when the `mp_size` ranks hold the
equal column blocks of a full tensor `T` in ascending `mp_index` order,
`naive_collect_forward_output` reconstructs `T` (on every rank, since the
allgather result is shared); `naive_collect_backward_output T i mp_size`
returns exactly block `i`; and forward-collect followed by backward-collect
on rank `i` is the identity on rank `i`'s block. -/
theorem naive_forward_backward_duality (T : Mat) (mp p i : Nat)
    (hmp : 1 ≤ mp) (hcols : T.cols = mp * p) (hi : i < mp) :
    Mat.EqOn (naive_collect_forward_output (fun j => colBlock T j p) mp) T
    ∧ Mat.EqOn (naive_collect_backward_output T i mp) (colBlock T i p)
    ∧ Mat.EqOn
        (naive_collect_backward_output
          (naive_collect_forward_output (fun j => colBlock T j p) mp) i mp)
        (colBlock T i p) := by
  have hFc := naive_forward_blocks_cols T p mp
  have hFr := naive_forward_blocks_rows T p mp hmp
  have hpw : mp * p / mp = p := Nat.mul_div_cancel_left p hmp
  have hb : i * p + p ≤ mp * p := by
    have h2 : (i + 1) * p ≤ mp * p := Nat.mul_le_mul_right p hi
    have h3 : (i + 1) * p = i * p + p := Nat.succ_mul i p
    omega
  refine ⟨⟨hFr, by rw [hFc, hcols], ?_⟩, ?_, ?_⟩
  · intro r _ c hc
    rw [hFc] at hc
    exact naive_forward_blocks_entry T p mp r c hc
  · unfold naive_collect_backward_output
    rw [hcols, hpw]
    exact ⟨rfl, rfl, fun _ _ _ _ => rfl⟩
  · unfold naive_collect_backward_output
    rw [hFc, hpw]
    refine ⟨by rw [colBlock_rows, colBlock_rows, hFr], rfl, ?_⟩
    intro r _ c hc
    have hc' : c < p := hc
    rw [colBlock_entry, colBlock_entry]
    exact naive_forward_blocks_entry T p mp r (i * p + c) (by omega)

theorem naive_forward_backward_duality_witness :
    (1 ≤ 2 ∧ T_dual.cols = 2 * 2 ∧ 1 < 2)
    ∧ (Mat.EqOn (naive_collect_forward_output (fun j => colBlock T_dual j 2) 2) T_dual
       ∧ Mat.EqOn (naive_collect_backward_output T_dual 1 2) (colBlock T_dual 1 2)
       ∧ Mat.EqOn
           (naive_collect_backward_output
             (naive_collect_forward_output (fun j => colBlock T_dual j 2) 2) 1 2)
           (colBlock T_dual 1 2)) :=
  ⟨⟨by decide, rfl, by decide⟩,
   naive_forward_backward_duality T_dual 2 2 1 (by decide) rfl (by decide)⟩

/-- C6 counterexample: two ranks hold tensors whose feature widths disagree
(widths 1 and 2, so they cannot both match any planner `part_out_dim`), yet
`naive_collect_forward_output` raises nothing and returns a width-3
concatenation: no shape check precedes the collective dispatch. -/
theorem naive_forward_no_shape_check_cex :
    (mismatch_outs 0).cols ≠ (mismatch_outs 1).cols
    ∧ (naive_collect_forward_output mismatch_outs 2).cols = 3
    ∧ (naive_collect_forward_output mismatch_outs 2).rows = 2
    ∧ (naive_collect_forward_output mismatch_outs 2).entry 0 0 = 1
    ∧ (naive_collect_forward_output mismatch_outs 2).entry 0 1 = 2 := by
  decide

/-- C6 amended: the naive forward collectives perform no shape check at
all — they allgather and concatenate whatever local widths the ranks
provide, returning a tensor whose feature width is the sum of the local
widths; a disagreement with the planner's expected `part_in_dim` /
`part_out_dim` proceeds silently instead of raising a layout error. -/
theorem naive_collectives_unchecked_width (f : Nat → Mat) (mp : Nat) :
    (naive_collect_forward_input f mp).cols
        = ((List.range mp).map (fun j => (f j).cols)).sum
    ∧ (naive_collect_forward_output f mp).cols
        = ((List.range mp).map (fun j => (f j).cols)).sum := by
  constructor
  · rw [naive_collect_forward_input, concatCols_cols, List.map_map]
    rfl
  · rw [naive_collect_forward_output, concatCols_cols, List.map_map]
    rfl

theorem naive_collect_backward_x_rows (gs : Nat → Mat) (mp i : Nat) :
    (naive_collect_backward_x gs mp i).rows = (gs i).rows := rfl

theorem naive_collect_backward_x_cols (gs : Nat → Mat) (mp i : Nat) :
    (naive_collect_backward_x gs mp i).cols = (gs i).cols / mp := rfl

theorem naive_collect_backward_x_entry (gs : Nat → Mat) (mp i r c : Nat) :
    (naive_collect_backward_x gs mp i).entry r c
      = ((List.range mp).map (fun j =>
          ((gs j).transpose).flatten
            (i * ((gs i).cols / mp * (gs i).rows) + (c * (gs i).rows + r)))).sum := rfl

/-- C2: reduce-scatter correctness of `naive_collect_backward_x` — for
per-rank gradient tensors of identical shape `(batch, in_dim)` with
`mp_size` dividing `in_dim`, rank `i` receives exactly column block `i`
(width `in_dim / mp_size`) of the element-wise sum of all ranks' tensors;
every element lands at its logical (row, column) position despite the
transpose-flatten-reduce_scatter-reshape-transpose sequence. -/
theorem naive_backward_x_reduce_scatter (gs : Nat → Mat) (mp i batch n : Nat)
    (_hmp : 1 ≤ mp) (hi : i < mp) (_hdvd : mp ∣ n)
    (hshape : ∀ j, j < mp → (gs j).rows = batch ∧ (gs j).cols = n) :
    Mat.EqOn (naive_collect_backward_x gs mp i)
      (colBlock (elementwiseSum gs mp batch n) i (n / mp)) := by
  obtain ⟨hri, hci⟩ := hshape i hi
  refine ⟨?_, ?_, ?_⟩
  · rw [naive_collect_backward_x_rows, hri]
    rfl
  · rw [naive_collect_backward_x_cols, hci]
    rfl
  · intro r hr c hc
    rw [naive_collect_backward_x_rows, hri] at hr
    rw [naive_collect_backward_x_cols, hci] at hc
    rw [naive_collect_backward_x_entry, colBlock_entry]
    show _ = (elementwiseSum gs mp batch n).entry r (i * (n / mp) + c)
    simp only [elementwiseSum, sumEntry]
    congr 1
    apply List.map_congr_left
    intro j hj
    obtain ⟨hrj, hcj⟩ := hshape j (List.mem_range.mp hj)
    rw [hri, hci]
    simp only [Mat.flatten, Mat.transpose, hrj]
    have hb : 0 < batch := by omega
    have hK : i * (n / mp * batch) + (c * batch + r)
        = batch * (i * (n / mp) + c) + r := by ring
    rw [hK, Nat.mul_add_mod, Nat.mod_eq_of_lt hr, Nat.mul_add_div hb,
      Nat.div_eq_of_lt hr, Nat.add_zero]

theorem naive_backward_x_reduce_scatter_witness :
    (1 ≤ 2 ∧ 1 < 2 ∧ (2 : Nat) ∣ 2
      ∧ ∀ j, j < 2 → (gs_rs j).rows = 1 ∧ (gs_rs j).cols = 2)
    ∧ Mat.EqOn (naive_collect_backward_x gs_rs 2 1)
        (colBlock (elementwiseSum gs_rs 2 1 2) 1 (2 / 2)) :=
  ⟨⟨by decide, by decide, by decide, by decide⟩,
   naive_backward_x_reduce_scatter gs_rs 2 1 1 2 (by decide) (by decide)
     (by decide) (by decide)⟩

/-- C3: the Megatron strategy contract — `megatron_collect_forward_output`
returns the element-wise sum of the ranks' equal-shape partial outputs,
identically on every participating rank, while the other three Megatron
collectives are the identity on their tensor argument. -/
theorem megatron_strategy_contract (outs : Nat → Mat) (x g1 g2 : Mat)
    (mp i i2 idx rows cols : Nat)
    (_hmp : 1 ≤ mp) (hi : i < mp) (hi2 : i2 < mp)
    (hshape : ∀ j, j < mp → (outs j).rows = rows ∧ (outs j).cols = cols) :
    Mat.EqOn (megatron_collect_forward_output outs mp i)
        (elementwiseSum outs mp rows cols)
    ∧ Mat.EqOn (megatron_collect_forward_output outs mp i)
        (megatron_collect_forward_output outs mp i2)
    ∧ megatron_collect_forward_input x mp = x
    ∧ megatron_collect_backward_output g1 idx mp = g1
    ∧ megatron_collect_backward_x g2 mp = g2 := by
  obtain ⟨h1, h2⟩ := hshape i hi
  obtain ⟨h3, h4⟩ := hshape i2 hi2
  exact ⟨⟨h1, h2, fun _ _ _ _ => rfl⟩,
    ⟨h1.trans h3.symm, h2.trans h4.symm, fun _ _ _ _ => rfl⟩,
    rfl, rfl, rfl⟩

theorem megatron_strategy_contract_witness :
    (1 ≤ 2 ∧ 0 < 2 ∧ 1 < 2
      ∧ ∀ j, j < 2 → (outs_mg j).rows = 1 ∧ (outs_mg j).cols = 1)
    ∧ (Mat.EqOn (megatron_collect_forward_output outs_mg 2 0)
          (elementwiseSum outs_mg 2 1 1)
       ∧ Mat.EqOn (megatron_collect_forward_output outs_mg 2 0)
          (megatron_collect_forward_output outs_mg 2 1)
       ∧ megatron_collect_forward_input x_mg 2 = x_mg
       ∧ megatron_collect_backward_output x_mg 0 2 = x_mg
       ∧ megatron_collect_backward_x x_mg 2 = x_mg) :=
  ⟨⟨by decide, by decide, by decide, by decide⟩,
   megatron_strategy_contract outs_mg x_mg x_mg x_mg 2 0 1 0 1 1 (by decide)
     (by decide) (by decide) (by decide)⟩

/-- C8: the Gradient Reducer sums without normalization —
`collect_weight_grad` returns the element-wise sum (not the mean) of the
per-rank weight and bias gradients, identically on every participating
rank, and for `dp_size = 1` the returned gradients equal the single rank's
inputs unchanged. -/
theorem collect_weight_grad_sums (ws bs : Nat → Mat) (dp i i2 wr wc br bc : Nat)
    (_hdp : 1 ≤ dp) (hi : i < dp) (hi2 : i2 < dp)
    (hw : ∀ j, j < dp → (ws j).rows = wr ∧ (ws j).cols = wc)
    (hb : ∀ j, j < dp → (bs j).rows = br ∧ (bs j).cols = bc) :
    Mat.EqOn (collect_weight_grad ws bs dp i).1 (elementwiseSum ws dp wr wc)
    ∧ Mat.EqOn (collect_weight_grad ws bs dp i).2 (elementwiseSum bs dp br bc)
    ∧ Mat.EqOn (collect_weight_grad ws bs dp i).1 (collect_weight_grad ws bs dp i2).1
    ∧ Mat.EqOn (collect_weight_grad ws bs dp i).2 (collect_weight_grad ws bs dp i2).2
    ∧ (dp = 1 → Mat.EqOn (collect_weight_grad ws bs 1 0).1 (ws 0)
        ∧ Mat.EqOn (collect_weight_grad ws bs 1 0).2 (bs 0)) := by
  obtain ⟨hwr, hwc⟩ := hw i hi
  obtain ⟨hbr, hbc⟩ := hb i hi
  obtain ⟨hwr2, hwc2⟩ := hw i2 hi2
  obtain ⟨hbr2, hbc2⟩ := hb i2 hi2
  refine ⟨⟨hwr, hwc, fun _ _ _ _ => rfl⟩, ⟨hbr, hbc, fun _ _ _ _ => rfl⟩,
    ⟨hwr.trans hwr2.symm, hwc.trans hwc2.symm, fun _ _ _ _ => rfl⟩,
    ⟨hbr.trans hbr2.symm, hbc.trans hbc2.symm, fun _ _ _ _ => rfl⟩, ?_⟩
  intro _
  constructor
  · refine ⟨rfl, rfl, ?_⟩
    intro r _ c _
    show sumEntry ws 1 r c = (ws 0).entry r c
    simp [sumEntry, List.range_succ]
  · refine ⟨rfl, rfl, ?_⟩
    intro r _ c _
    show sumEntry bs 1 r c = (bs 0).entry r c
    simp [sumEntry, List.range_succ]

theorem collect_weight_grad_sums_witness :
    (1 ≤ 1 ∧ 0 < 1 ∧ 0 < 1
      ∧ (∀ j, j < 1 → (ws_w j).rows = 2 ∧ (ws_w j).cols = 1)
      ∧ (∀ j, j < 1 → (bs_w j).rows = 1 ∧ (bs_w j).cols = 1))
    ∧ (Mat.EqOn (collect_weight_grad ws_w bs_w 1 0).1 (elementwiseSum ws_w 1 2 1)
       ∧ Mat.EqOn (collect_weight_grad ws_w bs_w 1 0).2 (elementwiseSum bs_w 1 1 1)
       ∧ Mat.EqOn (collect_weight_grad ws_w bs_w 1 0).1 (collect_weight_grad ws_w bs_w 1 0).1
       ∧ Mat.EqOn (collect_weight_grad ws_w bs_w 1 0).2 (collect_weight_grad ws_w bs_w 1 0).2
       ∧ (1 = 1 → Mat.EqOn (collect_weight_grad ws_w bs_w 1 0).1 (ws_w 0)
           ∧ Mat.EqOn (collect_weight_grad ws_w bs_w 1 0).2 (bs_w 0))) :=
  ⟨⟨by decide, by decide, by decide, by decide, by decide⟩,
   collect_weight_grad_sums ws_w bs_w 1 0 0 2 1 1 1 (by decide) (by decide)
     (by decide) (by decide) (by decide)⟩
